import Mathlib

/-!
Verification of the OpenCL complex-number kernel
(src/Mathematics.NET/GPU/OpenCL/Kernels/complex.c and complex.h).

The C code computes on IEEE-754 binary64 values (C `double`).  We model a
double shallowly as an exact value: a rational number, `+inf`, `-inf`, or a
single `nan`.  Arithmetic on finite operands is exact rational arithmetic,
except that a result whose absolute value reaches the IEEE-754 binary64
overflow boundary `(2 - 2^-53) * 2^1023 = (2^54 - 1) * 2^970` becomes the
corresponding infinity, as it does under round-to-nearest-even.  The model
keeps one `nan` (IEEE NaN payloads and sign are unobservable through `==`),
an unsigned zero, and does not model rounding of in-range results or gradual
underflow: no claim checked below depends on either, and every concrete
input used sits far from any rounding boundary.  Propagation of NaN,
infinities and division by zero follows IEEE 754 and C99 Annex F.
-/

set_option maxRecDepth 20000

namespace ComplexKernel

/-- Model of an IEEE-754 binary64 value: an exact finite rational, an
infinity of either sign, or NaN. -/
inductive FpQ where
  | fin (q : ℚ)
  | inf
  | ninf
  | nan
deriving DecidableEq

/-- The IEEE-754 binary64 overflow boundary `(2 - 2^-53) * 2^1023`: under
round-to-nearest-even, an exact result with absolute value at or above this
bound rounds to the infinity of its sign; the largest finite double is
`(2 - 2^-52) * 2^1023`, just below it. -/
def ovfQ : ℚ := (2 ^ 54 - 1) * 2 ^ 970

/-- Deliver an exactly computed finite result: overflow to the infinity of
its sign at the IEEE boundary, otherwise keep the exact rational (in-range
rounding and underflow are not modelled). -/
def roundF (q : ℚ) : FpQ :=
  if ovfQ ≤ q then .inf
  else if q ≤ -ovfQ then .ninf
  else .fin q

/-- IEEE negation (the C unary minus on a double): exact on every class. -/
def fpNeg : FpQ → FpQ
  | .fin q => .fin (-q)
  | .inf => .ninf
  | .ninf => .inf
  | .nan => .nan

/-- The C `fabs`: absolute value, `fabs(±inf) = +inf`, `fabs(NaN) = NaN`. -/
def fpAbs : FpQ → FpQ
  | .fin q => .fin |q|
  | .inf => .inf
  | .ninf => .inf
  | .nan => .nan

/-- The C `<` on doubles: an unordered comparison (either side NaN) is
false; otherwise `-inf < finite < +inf` with the exact order on finites. -/
def fpLt : FpQ → FpQ → Bool
  | .fin a, .fin b => decide (a < b)
  | .fin _, .inf => true
  | .fin _, .ninf => false
  | .fin _, .nan => false
  | .inf, .fin _ => false
  | .inf, .inf => false
  | .inf, .ninf => false
  | .inf, .nan => false
  | .ninf, .fin _ => true
  | .ninf, .inf => true
  | .ninf, .ninf => false
  | .ninf, .nan => false
  | .nan, _ => false

/-- The C `==` on doubles: NaN compares unequal to everything (itself
included); infinities compare equal only to the same-signed infinity;
finite values compare by exact value. -/
def fpEq : FpQ → FpQ → Bool
  | .fin a, .fin b => decide (a = b)
  | .inf, .inf => true
  | .ninf, .ninf => true
  | _, _ => false

/-- IEEE addition: NaN absorbs, opposite infinities give NaN, an infinity
absorbs any finite operand, finite operands add exactly through `roundF`. -/
def fpAdd : FpQ → FpQ → FpQ
  | .fin a, .fin b => roundF (a + b)
  | .fin _, .inf => .inf
  | .fin _, .ninf => .ninf
  | .fin _, .nan => .nan
  | .inf, .fin _ => .inf
  | .inf, .inf => .inf
  | .inf, .ninf => .nan
  | .inf, .nan => .nan
  | .ninf, .fin _ => .ninf
  | .ninf, .inf => .nan
  | .ninf, .ninf => .ninf
  | .ninf, .nan => .nan
  | .nan, _ => .nan

/-- IEEE subtraction; `x - y` is exactly `x + (-y)` in every class. -/
def fpSub (x y : FpQ) : FpQ := fpAdd x (fpNeg y)

/-- IEEE multiplication: NaN absorbs, `infinity * 0` is NaN, an infinity
times a nonzero value carries the product's sign, finite operands multiply
exactly through `roundF`. -/
def fpMul : FpQ → FpQ → FpQ
  | .fin a, .fin b => roundF (a * b)
  | .fin a, .inf => if a = 0 then .nan else if 0 < a then .inf else .ninf
  | .fin a, .ninf => if a = 0 then .nan else if 0 < a then .ninf else .inf
  | .fin _, .nan => .nan
  | .inf, .fin b => if b = 0 then .nan else if 0 < b then .inf else .ninf
  | .inf, .inf => .inf
  | .inf, .ninf => .ninf
  | .inf, .nan => .nan
  | .ninf, .fin b => if b = 0 then .nan else if 0 < b then .ninf else .inf
  | .ninf, .inf => .ninf
  | .ninf, .ninf => .inf
  | .ninf, .nan => .nan
  | .nan, _ => .nan

/-- IEEE division: NaN absorbs, `inf/inf` and `0/0` give NaN, a nonzero
finite over zero gives the signed infinity (the model's zero is unsigned and
counts as positive), a finite over an infinity gives zero, an infinity over
a finite gives the signed infinity, and finite over nonzero finite divides
exactly through `roundF`. -/
def fpDiv : FpQ → FpQ → FpQ
  | .fin a, .fin b =>
      if b = 0 then (if a = 0 then .nan else if 0 < a then .inf else .ninf)
      else roundF (a / b)
  | .fin _, .inf => .fin 0
  | .fin _, .ninf => .fin 0
  | .fin _, .nan => .nan
  | .inf, .fin b => if 0 ≤ b then .inf else .ninf
  | .inf, .inf => .nan
  | .inf, .ninf => .nan
  | .inf, .nan => .nan
  | .ninf, .fin b => if 0 ≤ b then .ninf else .inf
  | .ninf, .inf => .nan
  | .ninf, .ninf => .nan
  | .ninf, .nan => .nan
  | .nan, _ => .nan

/-- Whether a model value is finite (neither an infinity nor NaN). -/
def FpQ.isFin : FpQ → Bool
  | .fin _ => true
  | _ => false

/-- The kernel's value type: `typedef struct __attribute__((packed))
{ double re; double im; } complex;`. -/
structure complex where
  re : FpQ
  im : FpQ
deriving DecidableEq

/-- Both components of the complex value are finite. -/
def complex.isFinite (z : complex) : Bool := z.re.isFin && z.im.isFin

/-- comp_add: componentwise sum. -/
def comp_add (z w : complex) : complex :=
  { re := fpAdd z.re w.re
    im := fpAdd z.im w.im }

/-- comp_conjugate: `(z.re, -z.im)`. -/
def comp_conjugate (z : complex) : complex :=
  { re := z.re
    im := fpNeg z.im }

/-- comp_div, transcribed branch for branch: Smith's scaled division with
the guard `fabs(d) < fabs(c)` on the denominator's components. -/
def comp_div (z w : complex) : complex :=
  let a := z.re
  let b := z.im
  let c := w.re
  let d := w.im
  if fpLt (fpAbs d) (fpAbs c) then
    let u := fpDiv d c
    { re := fpDiv (fpAdd a (fpMul b u)) (fpAdd c (fpMul d u))
      im := fpDiv (fpSub b (fpMul a u)) (fpAdd c (fpMul d u)) }
  else
    let u := fpDiv c d
    { re := fpDiv (fpAdd b (fpMul a u)) (fpAdd d (fpMul c u))
      im := fpDiv (fpSub (fpMul b u) a) (fpAdd d (fpMul c u)) }

/-- comp_mul: `re = z.re*w.re - z.im*w.im`, `im = z.re*w.im + w.re*z.im`. -/
def comp_mul (z w : complex) : complex :=
  { re := fpSub (fpMul z.re w.re) (fpMul z.im w.im)
    im := fpAdd (fpMul z.re w.im) (fpMul w.re z.im) }

/-- comp_reciprocate, transcribed as compiled: the zero test's body is the
bare expression statement `COMP_INFINITY;`, which constructs a compound
literal and discards it — the macro carries no `return`, and none is written
at the call site, so control always falls through to the unscaled formula
`u = z.re*z.re + z.im*z.im; result = (z.re/u, -z.im/u)`. -/
def comp_reciprocate (z : complex) : complex :=
  let u := fpAdd (fpMul z.re z.re) (fpMul z.im z.im)
  { re := fpDiv z.re u
    im := fpDiv (fpNeg z.im) u }

/-- comp_sub: componentwise difference. -/
def comp_sub (z w : complex) : complex :=
  { re := fpSub z.re w.re
    im := fpSub z.im w.im }

/-- Spec-side definition, following the spec's words for `divide`:
"If `|w.im| < |w.re|`: let `u = w.im / w.re`; `re = (z.re + z.im*u) /
(w.re + w.im*u)`; `im = (z.im - z.re*u) / (w.re + w.im*u)`. Otherwise: let
`u = w.re / w.im`; `re = (z.im + z.re*u) / (w.im + w.re*u)`; `im = (z.im*u
- z.re) / (w.im + w.re*u)`." -/
def divide_spec (z w : complex) : complex :=
  if fpLt (fpAbs w.im) (fpAbs w.re) then
    let u := fpDiv w.im w.re
    { re := fpDiv (fpAdd z.re (fpMul z.im u)) (fpAdd w.re (fpMul w.im u))
      im := fpDiv (fpSub z.im (fpMul z.re u)) (fpAdd w.re (fpMul w.im u)) }
  else
    let u := fpDiv w.re w.im
    { re := fpDiv (fpAdd z.im (fpMul z.re u)) (fpAdd w.im (fpMul w.re u))
      im := fpDiv (fpSub (fpMul z.im u) z.re) (fpAdd w.im (fpMul w.re u)) }

/-- The second (`|w.im| >= |w.re|`) branch of the spec's divide, on its
own so the tie-break behaviour can be stated. -/
def divide_second_branch (z w : complex) : complex :=
  let u := fpDiv w.re w.im
  { re := fpDiv (fpAdd z.im (fpMul z.re u)) (fpAdd w.im (fpMul w.re u))
    im := fpDiv (fpSub (fpMul z.im u) z.re) (fpAdd w.im (fpMul w.re u)) }

/-- Spec-side definition, following the spec's words for `multiply`:
"`re = z.re*w.re - z.im*w.im`, `im = z.re*w.im + w.re*z.im`". -/
def multiply_spec (z w : complex) : complex :=
  { re := fpSub (fpMul z.re w.re) (fpMul z.im w.im)
    im := fpAdd (fpMul z.re w.im) (fpMul w.re z.im) }

/-- Spec-side definition, following the spec's words for `reciprocal`:
"if `z = (0, 0)` exactly, return the Infinity sentinel"; "otherwise compute
via `u = z.re² + z.im²`; `re = z.re/u`; `im = -(z.im/u)`". -/
def reciprocal_spec (z : complex) : complex :=
  if fpEq z.re (.fin 0) && fpEq z.im (.fin 0) then
    { re := .inf, im := .inf }
  else
    let u := fpAdd (fpMul z.re z.re) (fpMul z.im z.im)
    { re := fpDiv z.re u
      im := fpNeg (fpDiv z.im u) }

/-- Result model for the C `hypot` primitive on finite operands: a finite
real value, or overflow to positive infinity (hypot of finite doubles is
never NaN and never negative). -/
inductive FpR where
  | fin (x : ℝ)
  | inf

/-- The overflow boundary `ovfQ` as a real number. -/
def ovfR : ℝ := (2 ^ 54 - 1) * 2 ^ 970

/-- A complex value with finite real components, the operand type for the
operations the kernel delegates to the C math library's real primitives
(`hypot`, `atan2`), modelled with exact real components. -/
structure complexR where
  re : ℝ
  im : ℝ

/-- Modelled from the spec: the C math library's two-argument Euclidean
norm `hypot`, which is not part of this repository.  Following the spec's
words it computes `sqrt(re² + im²)` while avoiding intermediate overflow,
so only a final value at or beyond the overflow boundary becomes infinity.
Stated as the graph of the function, since the value is an exact real. -/
def hypotM (x y : ℝ) (r : FpR) : Prop :=
  (ovfR ≤ Real.sqrt (x ^ 2 + y ^ 2) ∧ r = .inf) ∨
  (Real.sqrt (x ^ 2 + y ^ 2) < ovfR ∧ r = .fin (Real.sqrt (x ^ 2 + y ^ 2)))

/-- comp_magnitude: the body is `return hypot(z.re, z.im);`, a full
delegation to the hypotenuse primitive. -/
def comp_magnitude (z : complexR) (r : FpR) : Prop := hypotM z.re z.im r

/-- Modelled from the spec: the C math library's four-quadrant arctangent
`atan2(y, x)`, which is not part of this repository.  Following the spec's
words it is the angle of the point `(x, y)` relative to the positive real
axis, i.e. `Complex.arg` of `x + y*i`, lying in `(-pi, pi]` and sending
`(0, 0)` to `0` (the model's zero is unsigned).  Stated as a graph. -/
def atan2M (y x θ : ℝ) : Prop := θ = Complex.arg ⟨x, y⟩

/-- comp_phase: the body is `return atan2(z.im, z.re);`, a full delegation
to the four-quadrant arctangent primitive. -/
def comp_phase (z : complexR) (θ : ℝ) : Prop := atan2M z.im z.re θ

theorem ovfQ_pos : (0 : ℚ) < ovfQ := by norm_num [ovfQ]

theorem roundF_neg (q : ℚ) : roundF (-q) = fpNeg (roundF q) := by
  have hpos : (0 : ℚ) < ovfQ := ovfQ_pos
  unfold roundF
  split_ifs <;> first | rfl | (exfalso; linarith)

theorem fpNeg_fpNeg (x : FpQ) : fpNeg (fpNeg x) = x := by
  cases x <;> simp [fpNeg]

theorem fpAdd_comm (x y : FpQ) : fpAdd x y = fpAdd y x := by
  cases x <;> cases y <;> simp [fpAdd, add_comm]

theorem fpMul_comm (x y : FpQ) : fpMul x y = fpMul y x := by
  cases x <;> cases y <;> simp [fpMul, mul_comm]

theorem fpAdd_nan_left (x : FpQ) : fpAdd .nan x = .nan := rfl

theorem fpAdd_nan_right (x : FpQ) : fpAdd x .nan = .nan := by
  cases x <;> rfl

theorem fpMul_nan_right (x : FpQ) : fpMul x .nan = .nan := by
  cases x <;> rfl

theorem fpSub_nan_left (x : FpQ) : fpSub .nan x = .nan := rfl

theorem fpDiv_nan_left (x : FpQ) : fpDiv .nan x = .nan := rfl

theorem fpLt_eq_false_of_fpEq (x y : FpQ) (h : fpEq x y = true) : fpLt x y = false := by
  cases x <;> cases y <;> simp_all [fpEq, fpLt]

theorem fpDiv_fpNeg (x y : FpQ) : fpDiv (fpNeg x) y = fpNeg (fpDiv x y) := by
  cases x <;> cases y <;>
    simp only [fpDiv, fpNeg, neg_div, neg_eq_zero, neg_pos, neg_zero, roundF_neg] <;>
    split_ifs <;>
    first
      | rfl
      | (exfalso; linarith)
      | (exfalso; simp_all; rename_i hne hge hle; exact hne (le_antisymm hle hge))

/-- C1: the claim says `comp_reciprocate((0,0))` returns the Infinity
sentinel `(+inf, +inf)` bit-identically.  The compiled code does not: the
zero test's body, the expression statement `COMP_INFINITY;`, constructs the
sentinel and discards it without returning, so control falls through to
`u = 0` and the function returns `(0/0, -0/0) = (NaN, NaN)`.  The spec-side
definition (with the intended return) produces the sentinel; the code's
divergence from it at the zero input is exactly the missing `return`. -/
theorem reciprocate_zero_divergence :
    comp_reciprocate { re := .fin 0, im := .fin 0 } = { re := .nan, im := .nan } ∧
    reciprocal_spec { re := .fin 0, im := .fin 0 } = { re := .inf, im := .inf } := by
  constructor
  · norm_num [comp_reciprocate, fpMul, fpAdd, fpDiv, fpNeg, roundF, ovfQ]
  · norm_num [reciprocal_spec, fpEq]

/-- C2: comp_div computes exactly the two-branch Smith formulas written in
the spec (first conjunct, against the spec-side definition), and the tie
`|w.im| == |w.re|` takes the second branch, since the guard is a strict
`<` (second conjunct). -/
theorem div_matches_smith_spec (z w : complex) :
    comp_div z w = divide_spec z w ∧
    (fpEq (fpAbs w.im) (fpAbs w.re) = true →
      comp_div z w = divide_second_branch z w) := by
  refine ⟨rfl, fun h => ?_⟩
  have hlt : fpLt (fpAbs w.im) (fpAbs w.re) = false := fpLt_eq_false_of_fpEq _ _ h
  simp only [comp_div, divide_second_branch, hlt, Bool.false_eq_true, if_false]

/-- C2 witness: at the tie `w = (3, -3)` the second-branch formula is what
comp_div returns. -/
theorem div_matches_smith_spec_witness :
    comp_div { re := .fin 1, im := .fin 2 } { re := .fin 3, im := .fin (-3) } =
      divide_second_branch { re := .fin 1, im := .fin 2 } { re := .fin 3, im := .fin (-3) } :=
  (div_matches_smith_spec { re := .fin 1, im := .fin 2 } { re := .fin 3, im := .fin (-3) }).2
    (by norm_num [fpEq, fpAbs, abs_neg])

/-- C3: with the severely unbalanced denominator `(1e300, 1e-300)` Smith
division stays finite and nonzero: both components come out as explicit
finite rationals (no infinity, so no overflow), neither is 0, and each
equals the corresponding component of the exact mathematical quotient
`(1 + i) / (1e300 + 1e-300 i)`, i.e. `(a*c + b*d)/(c² + d²)` and
`(b*c - a*d)/(c² + d²)` — the model computes division exactly, so the
Smith rewriting loses nothing here. -/
theorem div_unbalanced_denominator_stable :
    comp_div { re := .fin 1, im := .fin 1 }
        { re := .fin (10 ^ 300), im := .fin ((10 ^ 300)⁻¹) } =
      { re := .fin ((10 ^ 900 + 10 ^ 300) / (10 ^ 1200 + 1)),
        im := .fin ((10 ^ 900 - 10 ^ 300) / (10 ^ 1200 + 1)) } ∧
    ((10 ^ 900 + 10 ^ 300 : ℚ) / (10 ^ 1200 + 1) ≠ 0) ∧
    ((10 ^ 900 - 10 ^ 300 : ℚ) / (10 ^ 1200 + 1) ≠ 0) ∧
    (10 ^ 900 + 10 ^ 300 : ℚ) / (10 ^ 1200 + 1) =
      (1 * 10 ^ 300 + 1 * (10 ^ 300)⁻¹) / ((10 ^ 300 : ℚ) ^ 2 + (((10 ^ 300 : ℚ))⁻¹) ^ 2) ∧
    (10 ^ 900 - 10 ^ 300 : ℚ) / (10 ^ 1200 + 1) =
      (1 * 10 ^ 300 - 1 * (10 ^ 300)⁻¹) / ((10 ^ 300 : ℚ) ^ 2 + (((10 ^ 300 : ℚ))⁻¹) ^ 2) := by
  refine ⟨?_, by norm_num, by norm_num, by norm_num, by norm_num⟩
  norm_num [comp_div, fpLt, fpAbs, fpDiv, fpAdd, fpSub, fpMul, fpNeg, roundF, ovfQ,
    abs_inv, abs_pow, abs_div, abs_one]

/-- C4: away from the exact zero input, comp_reciprocate computes the naive
unscaled formula of the spec: with `u = z.re² + z.im²` it returns
`(z.re/u, -(z.im/u))` — the code's `(-z.im)/u` agrees with the spec's
`-(z.im/u)` in every value class. -/
theorem reciprocate_nonzero_matches_spec (z : complex)
    (h : (fpEq z.re (.fin 0) && fpEq z.im (.fin 0)) = false) :
    comp_reciprocate z = reciprocal_spec z := by
  simp only [reciprocal_spec, h, Bool.false_eq_true, if_false, comp_reciprocate]
  rw [fpDiv_fpNeg]

/-- C4 witness: the agreement at the nonzero input `(1, 2)`. -/
theorem reciprocate_nonzero_matches_spec_witness :
    comp_reciprocate { re := .fin 1, im := .fin 2 } =
      reciprocal_spec { re := .fin 1, im := .fin 2 } :=
  reciprocate_nonzero_matches_spec { re := .fin 1, im := .fin 2 } (by norm_num [fpEq])

/-- C5: comp_mul is componentwise the spec's standard complex product
`re = z.re*w.re - z.im*w.im`, `im = z.re*w.im + w.re*z.im`, with no
special-casing (in particular no overflow guard: finite products go
straight through the rounding map). -/
theorem mul_matches_spec (z w : complex) : comp_mul z w = multiply_spec z w := rfl

/-- C6: comp_phase is the four-quadrant arctangent of `(z.im, z.re)`
(first conjunct, a full delegation), it sends `(1,0)` to `0`, `(0,1)` to
`pi/2` and `(-1,0)` to `pi`, and every value it returns lies in
`(-pi, pi]`. -/
theorem phase_atan2_conventions :
    (∀ z θ, comp_phase z θ ↔ atan2M z.im z.re θ) ∧
    comp_phase { re := 1, im := 0 } 0 ∧
    comp_phase { re := 0, im := 1 } (Real.pi / 2) ∧
    comp_phase { re := -1, im := 0 } Real.pi ∧
    (∀ z θ, comp_phase z θ → θ ∈ Set.Ioc (-Real.pi) Real.pi) := by
  have h1 : (⟨1, 0⟩ : ℂ) = 1 := Complex.ext rfl (by simp)
  have hI : (⟨0, 1⟩ : ℂ) = Complex.I := Complex.ext rfl (by simp)
  have hn : (⟨-1, 0⟩ : ℂ) = -1 := Complex.ext rfl (by simp)
  refine ⟨fun z θ => Iff.rfl, ?_, ?_, ?_, fun z θ h => ?_⟩
  · show (0 : ℝ) = Complex.arg ⟨1, 0⟩
    rw [h1, Complex.arg_one]
  · show Real.pi / 2 = Complex.arg ⟨0, 1⟩
    rw [hI, Complex.arg_I]
  · show Real.pi = Complex.arg ⟨-1, 0⟩
    rw [hn, Complex.arg_neg_one]
  · exact h ▸ Complex.arg_mem_Ioc _

/-- C6 witness: the theorem's range conjunct applied at the concrete input
`(1, 0)`, whose phase the theorem itself provides. -/
theorem phase_atan2_conventions_witness :
    comp_phase { re := 1, im := 0 } 0 ∧ (0 : ℝ) ∈ Set.Ioc (-Real.pi) Real.pi :=
  ⟨phase_atan2_conventions.2.1,
    phase_atan2_conventions.2.2.2.2 { re := 1, im := 0 } 0 phase_atan2_conventions.2.1⟩

/-- C7: comp_magnitude is the overflow-avoiding Euclidean norm: it
delegates to the hypot model (first conjunct), `magnitude((3,4))` is
exactly `5` (second), and `magnitude((1e300, 1e300))` is the finite value
`1e300 * sqrt 2` — below the overflow boundary, not infinity (third). -/
theorem magnitude_hypot_correct :
    (∀ z r, comp_magnitude z r ↔ hypotM z.re z.im r) ∧
    comp_magnitude { re := 3, im := 4 } (.fin 5) ∧
    comp_magnitude { re := 10 ^ 300, im := 10 ^ 300 } (.fin (10 ^ 300 * Real.sqrt 2)) := by
  have h34 : Real.sqrt ((3 : ℝ) ^ 2 + 4 ^ 2) = 5 := by
    rw [show ((3 : ℝ) ^ 2 + 4 ^ 2) = 5 ^ 2 by norm_num, Real.sqrt_sq (by norm_num)]
  have hbig : Real.sqrt (((10 : ℝ) ^ 300) ^ 2 + ((10 : ℝ) ^ 300) ^ 2) =
      10 ^ 300 * Real.sqrt 2 := by
    rw [show (((10 : ℝ) ^ 300) ^ 2 + ((10 : ℝ) ^ 300) ^ 2) = ((10 : ℝ) ^ 300) ^ 2 * 2 by ring,
      Real.sqrt_mul (by positivity), Real.sqrt_sq (by positivity)]
  have hs2 : Real.sqrt 2 < 2 := (Real.sqrt_lt' (by norm_num)).mpr (by norm_num)
  refine ⟨fun z r => Iff.rfl, Or.inr ⟨?_, ?_⟩, Or.inr ⟨?_, ?_⟩⟩
  · rw [h34]; norm_num [ovfR]
  · rw [h34]
  · rw [hbig, ovfR]
    have : (10 : ℝ) ^ 300 * Real.sqrt 2 < 10 ^ 300 * 2 :=
      mul_lt_mul_of_pos_left hs2 (by positivity)
    refine this.trans_le ?_
    norm_num
  · rw [hbig]

/-- C8: comp_add and comp_mul are commutative on finite operands. -/
theorem add_mul_comm_finite (z w : complex)
    (hz : z.isFinite = true) (hw : w.isFinite = true) :
    comp_add z w = comp_add w z ∧ comp_mul z w = comp_mul w z := by
  constructor
  · show complex.mk (fpAdd z.re w.re) (fpAdd z.im w.im) =
      complex.mk (fpAdd w.re z.re) (fpAdd w.im z.im)
    rw [fpAdd_comm z.re w.re, fpAdd_comm z.im w.im]
  · show complex.mk (fpSub (fpMul z.re w.re) (fpMul z.im w.im))
        (fpAdd (fpMul z.re w.im) (fpMul w.re z.im)) =
      complex.mk (fpSub (fpMul w.re z.re) (fpMul w.im z.im))
        (fpAdd (fpMul w.re z.im) (fpMul z.re w.im))
    rw [fpMul_comm z.re w.re, fpMul_comm z.im w.im,
      fpAdd_comm (fpMul z.re w.im) (fpMul w.re z.im)]

/-- C8 witness: commutativity at the finite operands `(1,2)` and `(3,5)`. -/
theorem add_mul_comm_finite_witness :
    comp_add { re := .fin 1, im := .fin 2 } { re := .fin 3, im := .fin 5 } =
        comp_add { re := .fin 3, im := .fin 5 } { re := .fin 1, im := .fin 2 } ∧
    comp_mul { re := .fin 1, im := .fin 2 } { re := .fin 3, im := .fin 5 } =
        comp_mul { re := .fin 3, im := .fin 5 } { re := .fin 1, im := .fin 2 } :=
  add_mul_comm_finite { re := .fin 1, im := .fin 2 } { re := .fin 3, im := .fin 5 } rfl rfl

/-- C9: conjugation is an involution on every value, non-finite components
included: negation restores every class (`-(-q) = q`, the infinities swap
back, NaN stays NaN). -/
theorem conjugate_involution (z : complex) :
    comp_conjugate (comp_conjugate z) = z := by
  cases z with
  | mk re im =>
      show complex.mk re (fpNeg (fpNeg im)) = complex.mk re im
      rw [fpNeg_fpNeg]

/-- C10: dividing any complex value by the exact zero `(0, 0)` yields
`(NaN, NaN)`: the tie `|0| < |0|` fails, the second branch computes
`u = 0/0 = NaN`, and NaN propagates into both components whatever z is. -/
theorem div_by_zero_yields_nan (z : complex) :
    comp_div z { re := .fin 0, im := .fin 0 } = { re := .nan, im := .nan } := by
  have hguard : fpLt (fpAbs (FpQ.fin 0)) (fpAbs (FpQ.fin 0)) = false := by
    norm_num [fpLt, fpAbs]
  have hu : fpDiv (FpQ.fin 0) (FpQ.fin 0) = .nan := by norm_num [fpDiv]
  simp only [comp_div, hguard, Bool.false_eq_true, if_false, hu,
    fpMul_nan_right, fpAdd_nan_right, fpSub_nan_left, fpDiv_nan_left]

end ComplexKernel
